import Mathlib

/-!
Verification development for the klask argument-state engine and process
execution layer.  Strings are modelled as lists of characters (`Str`) so that
token splitting and joining can be reasoned about with list lemmas.
-/

set_option maxHeartbeats 1000000
set_option synthInstance.maxHeartbeats 400000

abbrev Str := List Char

/-! ## Argument State Engine: data model

The engine sources (`app_state.rs`, `arg_state.rs`) are not among the provided
files; their tests (`src/app_state/tests.rs`) are.  The data model below is
modelled from the spec (§3, §4.1), keeping the shapes that the tests exhibit
(`ArgKind::String { value, .. }`, `ArgKind::MultipleStrings { values }` with
`(text, stable identity)` pairs, `ArgKind::Bool`, `ArgKind::Occurrences(u8)`).
-/

/-- Modelled from the spec: the display kind of an argument descriptor (§3).
Path and choice arguments are specializations of `string`. -/
inductive ArgKindDesc where
  | string
  | bool
  | occurrences
  | multipleStrings
deriving DecidableEq

/-- Modelled from the spec: an argument descriptor (§3) — identifier (long flag
name), optional short flag, display kind, required-ness, default value,
forbid-empty, equals-requirement and multi-value delimiter.  The engine source
holding the Rust counterpart is absent from the provided files. -/
structure ArgDesc where
  long : Str
  short : Option Char := none
  kindDesc : ArgKindDesc
  required : Bool := false
  defaultValue : Option Str := none
  forbidEmpty : Bool := false
  requireEquals : Bool := false
  delimiter : Option Char := none
deriving DecidableEq

/-- The current payload of one argument state node (§3); the variants and their
payload shapes are the ones matched on by `src/app_state/tests.rs`.  The stable
identity of a multi-value entry is an opaque token, modelled as `Nat`. -/
inductive ArgKind where
  | string (value : Str)
  | multipleStrings (values : List (Str × Nat))
  | bool (b : Bool)
  | occurrences (n : Nat)
deriving DecidableEq

/-- The variant tag of a payload. -/
def ArgKind.tag : ArgKind → ArgKindDesc
  | .string _ => .string
  | .multipleStrings _ => .multipleStrings
  | .bool _ => .bool
  | .occurrences _ => .occurrences

/-- One state node per descriptor instance, with a back-reference to its
descriptor (§3). -/
structure ArgState where
  desc : ArgDesc
  kind : ArgKind
deriving DecidableEq

/-- The form state: one node per argument of the command (§3, §4.1).
Subcommands are not needed by the claims under scrutiny. -/
structure AppState where
  args : List ArgState
deriving DecidableEq

/-- Modelled from the spec: default payload for a freshly constructed node
(§4.1 Construction) — the descriptor's default value or the
variant-appropriate empty value. -/
def ArgDesc.initKind (d : ArgDesc) : ArgKind :=
  match d.kindDesc with
  | .string => .string (d.defaultValue.getD [])
  | .bool => .bool false
  | .occurrences => .occurrences 0
  | .multipleStrings => .multipleStrings []

/-- Modelled from the spec: construction of the form state from the schema
(§4.1), one node per descriptor in schema order. -/
def AppState.new (schema : List ArgDesc) : AppState :=
  ⟨schema.map fun d => ⟨d, d.initKind⟩⟩

/-! ### Mutations (from `src/app_state/tests.rs`)

The four mutation helpers are source code of the repository
(`impl ArgState` in `tests.rs`).  The test code panics when a mutation is
applied to a node of the wrong variant; the mismatching case is modelled as a
no-op and excluded by `Mutation.valid`. -/

/-- Mutation `ArgState::enter`: set the text of a `String` node (tests.rs). -/
def ArgState.enter (s : ArgState) (val : Str) : ArgState :=
  match s.kind with
  | .string _ => { s with kind := .string val }
  | _ => s

/-- Pair each entry text with a fresh opaque identity, counting up from `n`. -/
def withIds : List Str → Nat → List (Str × Nat)
  | [], _ => []
  | v :: vs, n => (v, n) :: withIds vs (n + 1)

/-- Mutation `ArgState::enter_multiple`: replace all entries of a `MultipleStrings`
node, pairing each text with a fresh opaque identity (tests.rs pairs each
entry with a fresh UUID; fresh identities are modelled as consecutive
numbers). -/
def ArgState.enter_multiple (s : ArgState) (vals : List Str) : ArgState :=
  match s.kind with
  | .multipleStrings _ =>
      { s with kind := .multipleStrings (withIds vals 0) }
  | _ => s

/-- Mutation `ArgState::occurrences`: set the count of an `Occurrences` node
(tests.rs). -/
def ArgState.occurrences (s : ArgState) (val : Nat) : ArgState :=
  match s.kind with
  | .occurrences _ => { s with kind := .occurrences val }
  | _ => s

/-- Mutation `ArgState::set`: set the value of a `Bool` node (tests.rs). -/
def ArgState.set (s : ArgState) (val : Bool) : ArgState :=
  match s.kind with
  | .bool _ => { s with kind := .bool val }
  | _ => s

/-- Apply a function to the element at index `i`, leaving the rest alone. -/
def updateAt : List α → Nat → (α → α) → List α
  | [], _, _ => []
  | x :: xs, 0, f => f x :: xs
  | x :: xs, n + 1, f => x :: updateAt xs n f

/-- One user edit against the form state (§4.1 Mutation operations), as
exercised by the tests. -/
inductive Mutation where
  | enter (i : Nat) (v : Str)
  | enterMultiple (i : Nat) (vs : List Str)
  | occurrences (i : Nat) (n : Nat)
  | set (i : Nat) (b : Bool)
deriving DecidableEq

/-- The index of the field a mutation touches. -/
def Mutation.index : Mutation → Nat
  | .enter i _ => i
  | .enterMultiple i _ => i
  | .occurrences i _ => i
  | .set i _ => i

/-- Apply one mutation to the form state. -/
def AppState.apply1 (st : AppState) (m : Mutation) : AppState :=
  match m with
  | .enter i v => ⟨updateAt st.args i (fun a => a.enter v)⟩
  | .enterMultiple i vs => ⟨updateAt st.args i (fun a => a.enter_multiple vs)⟩
  | .occurrences i n => ⟨updateAt st.args i (fun a => a.occurrences n)⟩
  | .set i b => ⟨updateAt st.args i (fun a => a.set b)⟩

/-- Apply a sequence of mutations left to right. -/
def AppState.applyMuts (st : AppState) (muts : List Mutation) : AppState :=
  muts.foldl AppState.apply1 st

/-- A mutation is valid when it addresses an existing field of the matching
variant (the tests panic otherwise), its occurrence count fits in a `u8`, and
multi-value entries do not contain the descriptor's delimiter character. -/
def Mutation.valid (schema : List ArgDesc) : Mutation → Bool
  | .enter i _ => (schema.get? i).any fun d => d.kindDesc == .string
  | .enterMultiple i vs =>
      (schema.get? i).any fun d =>
        d.kindDesc == .multipleStrings &&
          (match d.delimiter with
           | some c => vs.all fun v => !(v.contains c)
           | none => true)
  | .occurrences i n =>
      decide (n < 256) && (schema.get? i).any fun d => d.kindDesc == .occurrences
  | .set i _ => (schema.get? i).any fun d => d.kindDesc == .bool

/-! ### Reconstruction (modelled from the spec, §4.1) -/

/-- The long flag token of a descriptor: `--` followed by the long name. -/
def ArgDesc.flag (d : ArgDesc) : Str := '-' :: '-' :: d.long

/-- Modelled from the spec: emit one scalar value, either as the single token
`--flag=value` (equals-form) or as the two tokens `--flag`, `value` (§4.1). -/
def ArgDesc.emitScalar (d : ArgDesc) (v : Str) : List Str :=
  if d.requireEquals then [d.flag ++ '=' :: v] else [d.flag, v]

/-- Modelled from the spec: the tokens one named argument node contributes to
the reconstructed vector (§4.1 step 2, §8 forbid-empty filtering, and the
§4.1/§7 edge-case policy that a required-but-empty scalar emits an empty
value). -/
def ArgState.cmdTokens (a : ArgState) : List Str :=
  match a.kind with
  | .bool true => [a.desc.flag]
  | .bool false => []
  | .occurrences n => List.replicate n a.desc.flag
  | .string v =>
      if v ≠ [] then a.desc.emitScalar v
      else if a.desc.forbidEmpty then []
      else if a.desc.required then a.desc.emitScalar []
      else []
  | .multipleStrings vals =>
      if vals = [] then []
      else
        match a.desc.delimiter with
        | some c => a.desc.emitScalar (List.intercalate [c] (vals.map Prod.fst))
        | none =>
            if a.desc.requireEquals then
              vals.map fun p => a.desc.flag ++ '=' :: p.1
            else
              (vals.map fun p => [a.desc.flag, p.1]).flatten

/-- The tokens contributed by all argument nodes, in schema order. -/
def AppState.allTokens (st : AppState) : List Str :=
  (st.args.map ArgState.cmdTokens).flatten

/-- Reconstruction `AppState::get_cmd_args`: modelled from the spec — append the
reconstructed tokens to the initial vector (which carries the program name as
token 0); reconstruction is a pure, total function from state to tokens
(§4.1, §7). -/
def AppState.get_cmd_args (st : AppState) (args0 : List Str) : List Str :=
  args0 ++ st.allTokens

/-! ### The consuming parser (modelled from the spec)

§6: the reconstructed vector must be "consumable directly by the same parser
that defines the schema".  That parser (the schema library) is external to the
repository; it is modelled here from the CLI semantics the spec names in §2
and §4.1: equals-form vs space-form, delimiters, repeated-flag occurrence
counting, multi-value entry through repeated occurrences. -/

/-- A parsed field value: scalar (with `none` for "not given, no default"),
flag, occurrence count, or multi-value list. -/
inductive Value where
  | str (v : Option Str)
  | bool (b : Bool)
  | count (n : Nat)
  | multi (vs : List Str)
deriving DecidableEq

/-- Partial per-field parse data accumulated while scanning tokens. -/
inductive Raw where
  | str (v : Option Str)
  | bool (b : Bool)
  | count (n : Nat)
  | multi (delim : Option Char) (vs : List Str)
deriving DecidableEq

/-- Look up the parse data recorded for a flag name. -/
def lookupRaw (name : Str) : List (Str × Raw) → Option Raw
  | [] => none
  | p :: ps => if p.1 = name then some p.2 else lookupRaw name ps

/-- Replace the parse data recorded for a flag name. -/
def setRaw (name : Str) (r : Raw) : List (Str × Raw) → List (Str × Raw)
  | [] => []
  | p :: ps => (if p.1 = name then (p.1, r) else p) :: setRaw name r ps

/-- Split a flag-token body at the first `=`: `name=value` into the name and
the value, or the whole body and no value when no `=` occurs. -/
def splitEq : Str → Str × Option Str
  | [] => ([], none)
  | c :: cs =>
      if c = '=' then ([], some cs)
      else
        let p := splitEq cs
        (c :: p.1, p.2)

/-- Split an attached value by the field's delimiter, if it has one. -/
def splitVal (delim : Option Char) (v : Str) : List Str :=
  match delim with
  | some c => v.splitOn c
  | none => [v]

/-- Modelled from the spec: scan the token list left to right.  A token
starting with `--` is a flag reference, either `--name=value` (equals-form) or
`--name` alone (a bare flag for booleans and counted flags, or followed by a
value token for scalars and multi-values).  Unknown flags and stray value
tokens are parse errors. -/
def parseLoop : List Str → List (Str × Raw) → Option (List (Str × Raw))
  | [], acc => some acc
  | t :: rest, acc =>
      match t with
      | '-' :: '-' :: body =>
          match splitEq body with
          | (name, some v) =>
              match lookupRaw name acc with
              | some (.str _) => parseLoop rest (setRaw name (.str (some v)) acc)
              | some (.multi dl vs) =>
                  parseLoop rest (setRaw name (.multi dl (vs ++ splitVal dl v)) acc)
              | _ => none
          | (name, none) =>
              match lookupRaw name acc with
              | some (.bool _) => parseLoop rest (setRaw name (.bool true) acc)
              | some (.count n) => parseLoop rest (setRaw name (.count (n + 1)) acc)
              | some (.str _) =>
                  match rest with
                  | v :: rest2 => parseLoop rest2 (setRaw name (.str (some v)) acc)
                  | [] => none
              | some (.multi dl vs) =>
                  match rest with
                  | v :: rest2 =>
                      parseLoop rest2 (setRaw name (.multi dl (vs ++ splitVal dl v)) acc)
                  | [] => none
              | none => none
      | _ => none

/-- Parse data for a field no token has mentioned yet. -/
def ArgDesc.initRaw (d : ArgDesc) : Raw :=
  match d.kindDesc with
  | .string => .str none
  | .bool => .bool false
  | .occurrences => .count 0
  | .multipleStrings => .multi d.delimiter []

/-- The accumulator a parse starts from: every schema field unset. -/
def initAcc (schema : List ArgDesc) : List (Str × Raw) :=
  schema.map fun d => (d.long, d.initRaw)

/-- Turn accumulated parse data into the field's final value, substituting the
schema default for an absent scalar. -/
def ArgDesc.finalize (d : ArgDesc) : Option Raw → Value
  | some (.str (some v)) => .str (some v)
  | some (.str none) => .str d.defaultValue
  | some (.bool b) => .bool b
  | some (.count n) => .count n
  | some (.multi _ vs) => .multi vs
  | none => .str none

/-- Modelled from the spec: parse a token vector (without the program name)
against the schema, yielding one value per schema field. -/
def parse (schema : List ArgDesc) (tokens : List Str) : Option (List Value) :=
  (parseLoop tokens (initAcc schema)).map fun acc =>
    schema.map fun d => d.finalize (lookupRaw d.long acc)

/-- The semantic field value a state node denotes: the value the reconstructed
tokens make the parser assign to the field (mirroring the §4.1 emission rules
and the schema defaults). -/
def ArgState.value (a : ArgState) : Value :=
  match a.kind with
  | .string v =>
      if v ≠ [] then .str (some v)
      else if a.desc.forbidEmpty then .str a.desc.defaultValue
      else if a.desc.required then .str (some [])
      else .str a.desc.defaultValue
  | .bool b => .bool b
  | .occurrences n => .count n
  | .multipleStrings vals => .multi (vals.map Prod.fst)

/-- The schema-default value of a field: the value an untouched field denotes
after construction (§4.1 defaulting plus the required-but-empty edge policy).
-/
def ArgDesc.defaultVal (d : ArgDesc) : Value :=
  ArgState.value ⟨d, d.initKind⟩

/-- Well-formedness of a schema: long names are pairwise distinct, nonempty
and free of `=` (so flag tokens are unambiguous). -/
def WellFormedSchema (schema : List ArgDesc) : Prop :=
  (schema.map ArgDesc.long).Nodup ∧
    ∀ d ∈ schema, d.long ≠ [] ∧ ¬ '=' ∈ d.long

instance : DecidablePred WellFormedSchema := fun schema => by
  unfold WellFormedSchema; infer_instance

/-! ## Process Execution Layer — threaded strategy (`child_app.rs`, non-wasm)

`ChildApp::run` is embedded as a function of an explicit OS environment that
fixes the outcome of every fallible OS call the source makes
(`std::env::current_exe`, `Path::canonicalize`, `Command::spawn`, the presence
of each pipe on the spawned child, and the stdin writes).  A reader-thread
channel is embedded as the list of items currently queued on it: `some line`
entries followed, once the stream has ended, by the `none` end sentinel the
reader thread sends. -/

/-- An OS-level I/O error (the payload of `std::io::Error`), abstract. -/
abbrev IoError := Nat

/-- The error type `ChildApp::run` returns (variants used by `child_app.rs`:
I/O errors converted via `?`, and `NoStdoutOrStderr` for an absent
stdout/stderr pipe). -/
inductive ExecutionError where
  | io (e : IoError)
  | noStdoutOrStderr
deriving DecidableEq

/-- Type `StdinType` from `child_app.rs`: stdin fed from a file or from text. -/
inductive StdinType where
  | file (path : Str)
  | text (contents : Str)
deriving DecidableEq

/-- The items currently queued on one reader-thread channel: lines, with the
`none` end sentinel queued after the last line once the stream ends. -/
abbrev Chan := List (Option Str)

/-- The threaded-strategy `ChildApp` (non-wasm, `child_app.rs`): the child
process handle (here: whether the process is still alive) and the two
receivers, each `none` once retired. -/
structure ChildApp where
  childAlive : Bool
  stdout : Option Chan
  stderr : Option Chan
deriving DecidableEq

/-- What `Command::spawn` produced: which pipes are present on the child. -/
structure SpawnedChild where
  hasStdout : Bool
  hasStderr : Bool
  hasStdin : Bool
deriving DecidableEq

/-- Outcomes of the fallible OS calls `ChildApp::run` makes, fixed up front so
`run` is a pure function of them. -/
structure OsEnv where
  currentExe : Except IoError Str
  canonicalize : Except IoError Str
  spawn : Except IoError SpawnedChild
  writeAll : Except IoError Unit
  fileOpen : Except IoError Unit
  fileCopy : Except IoError Unit

/-- The observable result of `ChildApp::run`: a session, an error return, or a
panic (the `unwrap` on the child's stdin pipe). -/
inductive RunResult where
  | ok (app : ChildApp)
  | err (e : ExecutionError)
  | panicked
deriving DecidableEq

/-- The stdin-feeding step of `ChildApp::run`: `child.stdin.take().unwrap()`
panics when the pipe is absent; otherwise the text is written
(`write_all`) or the file opened and copied, with `?` propagating errors. -/
def ChildApp.runStdin (env : OsEnv) (child : SpawnedChild) (stdin : Option StdinType) :
    RunResult :=
  match stdin with
  | none => .ok ⟨true, some [], some []⟩
  | some st =>
      if child.hasStdin then
        match st with
        | .text _ =>
            match env.writeAll with
            | .error e => .err (.io e)
            | .ok _ => .ok ⟨true, some [], some []⟩
        | .file _ =>
            match env.fileOpen with
            | .error e => .err (.io e)
            | .ok _ =>
                match env.fileCopy with
                | .error e => .err (.io e)
                | .ok _ => .ok ⟨true, some [], some []⟩
      else .panicked

/-- Steps of `ChildApp::run` from `spawn` on: spawn (`?`), take the stdout
pipe (`ok_or(NoStdoutOrStderr)`), take the stderr pipe (likewise), then feed
stdin. -/
def ChildApp.runSpawn (env : OsEnv) (stdin : Option StdinType) : RunResult :=
  match env.spawn with
  | .error e => .err (.io e)
  | .ok child =>
      if child.hasStdout then
        if child.hasStderr then ChildApp.runStdin env child stdin
        else .err .noStdoutOrStderr
      else .err .noStdoutOrStderr

/-- Function `ChildApp::run` (non-wasm): resolve the current executable (`?`), apply
the working directory if nonempty (canonicalize, `?`), then spawn and wire the
pipes.  `args` and `envVars` configure the child but decide no control flow.
-/
def ChildApp.run (env : OsEnv) (args : List Str)
    (envVars : Option (List (Str × Str))) (stdin : Option StdinType)
    (workingDir : Option Str) : RunResult :=
  match env.currentExe with
  | .error e => .err (.io e)
  | .ok _ =>
      match workingDir with
      | some wd =>
          if wd ≠ [] then
            match env.canonicalize with
            | .error e => .err (.io e)
            | .ok _ => ChildApp.runSpawn env stdin
          else ChildApp.runSpawn env stdin
      | none => ChildApp.runSpawn env stdin

/-- The working-directory step of `run` succeeds: no directory given, an empty
one (inherit), or one the OS can canonicalize. -/
def WdOk (env : OsEnv) : Option Str → Prop
  | none => True
  | some wd => wd = [] ∨ ∃ p, env.canonicalize = .ok p

/-- The drain loop of `ChildApp::read_stdio` over one receiver's queued items
(`try_iter`): append each queued line; on the `none` end sentinel retire the
channel and stop. -/
def drainChan (out : Str) : Chan → Str × Option Chan
  | [] => (out, some [])
  | some l :: rest => drainChan (out ++ l) rest
  | none :: _ => (out, none)

/-- Function `ChildApp::read_stdio`: skip an already-retired channel, otherwise drain
its queue. -/
def readStdio (out : Str) : Option Chan → Str × Option Chan
  | none => (out, none)
  | some q => drainChan out q

/-- Function `ChildApp::read` (non-wasm): drain stdout, then stderr, into one output
string; returns the output and the updated session. -/
def ChildApp.read (s : ChildApp) : Str × ChildApp :=
  let p1 := readStdio [] s.stdout
  let p2 := readStdio p1.1 s.stderr
  (p2.1, { s with stdout := p1.2, stderr := p2.2 })

/-- Function `ChildApp::is_running` (non-wasm): some channel is not yet retired. -/
def ChildApp.is_running (s : ChildApp) : Bool :=
  s.stdout.isSome || s.stderr.isSome

/-- Function `ChildApp::kill` (non-wasm): kill the child process and retire both
channels. -/
def ChildApp.kill (_s : ChildApp) : ChildApp :=
  ⟨false, none, none⟩

/-- The `impl Drop for ChildApp` (non-wasm): dropping the session runs `kill`. -/
def ChildApp.onDrop (s : ChildApp) : ChildApp :=
  s.kill

/-! ## Process Execution Layer — single-threaded cooperative strategy
(`child_app.rs`, wasm)

The suspended unit of work is embedded as the number of resumptions it still
needs before completing: polling a future with `n + 1` steps left returns
`Pending` and leaves `n`; polling one with `0` left returns `Ready`.  The
process-wide lock-protected logger queue is the list of queued messages. -/

/-- The wasm suspended unit of work: resumptions left until completion. -/
abbrev Fut := Nat

/-- The `Poll` type of `core::task`. -/
inductive PollResult where
  | ready
  | pending
deriving DecidableEq

/-- One `Future::poll` on the suspended unit of work. -/
def pollFut : Fut → PollResult × Fut
  | 0 => (.ready, 0)
  | n + 1 => (.pending, n)

/-- The wasm `ChildApp`: the future (if the child is running; `none` once
killed) and the logger's queue of messages. -/
structure WasmChildApp where
  fut : Option Fut
  queue : List Str
deriving DecidableEq

/-- Function `ChildApp::poll` (wasm): if a future is present, poll it (and request a
repaint) and return the poll result; if not, the child is already exhausted
and the result is `Ready`.  The future stays in place either way. -/
def WasmChildApp.poll (s : WasmChildApp) : PollResult × WasmChildApp :=
  match s.fut with
  | some f =>
      let p := pollFut f
      (p.1, { s with fut := some p.2 })
  | none => (.ready, s)

/-- Function `ChildApp::read` (wasm): drain the logger queue, appending `'\n'` to each
message. -/
def WasmChildApp.read (s : WasmChildApp) : Str × WasmChildApp :=
  ((s.queue.map fun m => m ++ ['\n']).flatten, { s with queue := [] })

/-- Function `ChildApp::is_running` (wasm): the future is still present. -/
def WasmChildApp.is_running (s : WasmChildApp) : Bool :=
  s.fut.isSome

/-- Function `ChildApp::kill` (wasm): discard the future. -/
def WasmChildApp.kill (s : WasmChildApp) : WasmChildApp :=
  { s with fut := none }

/-! ## Proof-support definitions -/

/-- The parse data the tokens of one node leave behind for its field. -/
def ArgState.finalRaw (a : ArgState) : Raw :=
  match a.kind with
  | .string v =>
      .str (if v ≠ [] then some v
            else if a.desc.forbidEmpty then none
            else if a.desc.required then some []
            else none)
  | .bool b => .bool b
  | .occurrences n => .count n
  | .multipleStrings vals => .multi a.desc.delimiter (vals.map Prod.fst)

/-- Record, field by field in schema order, the parse data each node's tokens
leave behind. -/
def applyUpd (args : List ArgState) (acc : List (Str × Raw)) : List (Str × Raw) :=
  args.foldl (fun ac a => setRaw a.desc.long a.finalRaw ac) acc

/-- A reachable, well-formed state node: the long name contains no `=`, the
payload variant matches the descriptor's kind, and multi-value entries do not
contain the descriptor's delimiter. -/
def ArgOk (a : ArgState) : Prop :=
  ¬ '=' ∈ a.desc.long ∧ a.kind.tag = a.desc.kindDesc ∧
    ∀ c vals, a.desc.delimiter = some c → a.kind = .multipleStrings vals →
      ∀ p ∈ vals, ¬ c ∈ p.1

/-- Abstract content of one reader channel: the lines currently queued, and
whether the end sentinel has been queued after them. -/
def chanRep : Option (List Str × Bool) → Option Chan
  | none => none
  | some (ls, ended) => some (ls.map some ++ if ended then [none] else [])

/-- The lines queued on an abstract channel. -/
def chanLines : Option (List Str × Bool) → List Str
  | none => []
  | some (ls, _) => ls

/-- The channel state after a drain: retired channels stay retired, a channel
whose end sentinel was queued is retired, and an active channel is left with
an empty queue. -/
def chanAfter : Option (List Str × Bool) → Option Chan
  | none => none
  | some (_, ended) => if ended then none else some []

/-! ## Theorems -/

/-- C2: the concrete scenario.  For the schema `--single <string>` (required),
`--flag-true` (bool) and `-o` alias `--occurrences` (counted), applying the
mutations
`single = "a"`, `flag-true = true`, `occurrences = 3` to a fresh state and
reconstructing with program name `"app"` yields exactly
`["app", "--single", "a", "--flag-true", "--occurrences", "--occurrences",
"--occurrences"]`. -/
theorem klask_concrete_scenario :
    ((AppState.new
          [⟨"single".toList, none, .string, true, none, false, false, none⟩,
           ⟨"flag-true".toList, none, .bool, false, none, false, false, none⟩,
           ⟨"occurrences".toList, some 'o', .occurrences, false, none, false, false, none⟩]).applyMuts
        [.enter 0 "a".toList, .set 1 true, .occurrences 2 3]).get_cmd_args
        ["app".toList]
      = ["app".toList, "--single".toList, "a".toList, "--flag-true".toList,
         "--occurrences".toList, "--occurrences".toList, "--occurrences".toList] := by
  decide

/-- C9: delimiter join.  A multi-value argument with delimiter `,` under an
equals-required descriptor, holding exactly the entries `["h", "i"]`,
reconstructs to exactly the single token `--name=h,i`. -/
theorem klask_delimiter_join :
    ArgState.cmdTokens
        ⟨⟨"name".toList, none, .multipleStrings, false, none, false, true, some ','⟩,
         .multipleStrings [("h".toList, 0), ("i".toList, 1)]⟩
      = ["--name=h,i".toList] := by
  decide

/-- C3: reconstruction is total — `get_cmd_args` is a plain function from
state to tokens with no error outcome, always returning the initial vector
followed by the per-node tokens — and a required scalar left empty (when empty
values are not forbidden) still emits its flag with an empty value rather than
failing. -/
theorem klask_reconstruction_total :
    (∀ (st : AppState) (args0 : List Str), st.get_cmd_args args0 = args0 ++ st.allTokens)
    ∧ ∀ d : ArgDesc, d.required = true → d.forbidEmpty = false →
        ArgState.cmdTokens ⟨d, .string []⟩
          = if d.requireEquals then [d.flag ++ ['=']] else [d.flag, []] := by
  constructor
  · intro st args0
    rfl
  · intro d hr hf
    simp [ArgState.cmdTokens, hr, hf, ArgDesc.emitScalar]

/-- Witness for C3: a concrete required string argument with an empty value
emits its flag followed by an empty value token. -/
theorem klask_reconstruction_total_witness :
    ArgState.cmdTokens
        ⟨⟨"single".toList, none, .string, true, none, false, false, none⟩, .string []⟩
      = ["--single".toList, ([] : Str)] := by
  have h := klask_reconstruction_total.2
    ⟨"single".toList, none, .string, true, none, false, false, none⟩ rfl rfl
  simpa using h

/-- C7: in the threaded strategy, `kill` kills the child process and retires
both channels immediately, after which `is_running` is false and `read`
returns the empty output; dropping the session runs this same `kill`. -/
theorem klask_kill_retires :
    ∀ s : ChildApp,
      (s.kill).childAlive = false ∧ (s.kill).stdout = none ∧ (s.kill).stderr = none
        ∧ (s.kill).is_running = false ∧ (s.kill).read = ([], s.kill)
        ∧ s.onDrop = s.kill := by
  intro s
  exact ⟨rfl, rfl, rfl, rfl, rfl, rfl⟩

/-- C8: in the cooperative strategy, `read` drains the lock-protected logger
queue, leaving it empty (and the unit of work untouched), and returns the
drained messages each terminated by a line separator. -/
theorem klask_wasm_read_drains :
    ∀ s : WasmChildApp,
      (s.read).1 = (s.queue.map fun m => m ++ ['\n']).flatten
        ∧ (s.read).2.queue = [] ∧ (s.read).2.fut = s.fut := by
  intro s
  exact ⟨rfl, rfl, rfl⟩

/-- Counterexample for C4: a concrete input on which `ChildApp::run` panics
rather than returning an `ExecutionError` — every OS call succeeds but the
spawned child's stdin pipe is absent while a stdin payload was supplied (the
source unwraps `child.stdin.take()`). -/
theorem klask_run_panics_cex :
    ChildApp.run
        ⟨.ok "exe".toList, .ok [], .ok ⟨true, true, false⟩, .ok (), .ok (), .ok ()⟩
        [] none (some (.text "x".toList)) none
      = .panicked := by
  rfl

/-- Helper: when the current executable resolves and the working-directory
step succeeds, `run` continues with the spawn steps. -/
theorem run_eq_runSpawn (env : OsEnv) (args : List Str)
    (envVars : Option (List (Str × Str))) (stdin : Option StdinType)
    (workingDir : Option Str) (x : Str)
    (hexe : env.currentExe = .ok x) (hwd : WdOk env workingDir) :
    ChildApp.run env args envVars stdin workingDir = ChildApp.runSpawn env stdin := by
  cases workingDir with
  | none => simp [ChildApp.run, hexe]
  | some wd =>
      rcases hwd with h | ⟨p, hp⟩
      · simp [ChildApp.run, hexe, h]
      · by_cases hw : wd = []
        · simp [ChildApp.run, hexe, hw]
        · simp [ChildApp.run, hexe, hw, hp]

/-- C4 as amended: resolving the current executable failing and spawning
failing each surface as an I/O `ExecutionError`; an absent stdout or stderr
pipe surfaces as the distinct `NoStdoutOrStderr` error; but an absent stdin
pipe, when a stdin payload was supplied, makes `run` panic (the source
unwraps it) rather than return an error. -/
theorem klask_run_failures :
    ∀ (env : OsEnv) (args : List Str) (envVars : Option (List (Str × Str)))
      (stdin : Option StdinType) (wd : Option Str),
      (∀ e, env.currentExe = .error e →
        ChildApp.run env args envVars stdin wd = .err (.io e))
      ∧ (∀ x e, env.currentExe = .ok x → WdOk env wd → env.spawn = .error e →
          ChildApp.run env args envVars stdin wd = .err (.io e))
      ∧ (∀ x c, env.currentExe = .ok x → WdOk env wd → env.spawn = .ok c →
          (c.hasStdout = false ∨ c.hasStderr = false) →
          ChildApp.run env args envVars stdin wd = .err .noStdoutOrStderr)
      ∧ (∀ x c st, env.currentExe = .ok x → WdOk env wd → env.spawn = .ok c →
          c.hasStdout = true → c.hasStderr = true → stdin = some st →
          c.hasStdin = false →
          ChildApp.run env args envVars stdin wd = .panicked) := by
  intro env args envVars stdin wd
  refine ⟨?_, ?_, ?_, ?_⟩
  · intro e he
    cases wd <;> simp [ChildApp.run, he]
  · intro x e hx hwd hs
    rw [run_eq_runSpawn env args envVars stdin wd x hx hwd]
    simp [ChildApp.runSpawn, hs]
  · intro x c hx hwd hs hmiss
    rw [run_eq_runSpawn env args envVars stdin wd x hx hwd]
    rcases hmiss with h | h
    · simp [ChildApp.runSpawn, hs, h]
    · cases ho : c.hasStdout <;> simp [ChildApp.runSpawn, hs, h, ho]
  · intro x c st hx hwd hs h1 h2 hst h3
    rw [run_eq_runSpawn env args envVars stdin wd x hx hwd]
    simp [ChildApp.runSpawn, hs, h1, h2, hst, ChildApp.runStdin, h3]

/-- Witness for the amended C4: a concrete failing `current_exe` resolution
surfaces as an I/O error. -/
theorem klask_run_failures_witness :
    ChildApp.run ⟨.error 7, .ok [], .ok ⟨true, true, true⟩, .ok (), .ok (), .ok ()⟩
        [] none none none
      = .err (.io 7) := by
  exact (klask_run_failures
    ⟨.error 7, .ok [], .ok ⟨true, true, true⟩, .ok (), .ok (), .ok ()⟩
    [] none none none).1 7 rfl

/-- Counterexample for C6: a session whose suspended unit of work completes on
this poll — the poll returns `Ready`, yet `is_running` on the polled session
still returns `true` (the source never discards the future in `poll`; only
`kill` does). -/
theorem klask_wasm_poll_cex :
    (WasmChildApp.poll ⟨some 0, []⟩).1 = .ready
      ∧ (WasmChildApp.poll ⟨some 0, []⟩).2.is_running = true := by
  exact ⟨rfl, rfl⟩

/-- C6 as amended: completion of the suspended unit of work does not by itself
mark the session not-running — `poll` leaves `is_running` unchanged even when
it returns `Ready`; the session is marked not-running exactly when the host
discards the unit via `kill`, after which every poll returns `Ready`. -/
theorem klask_wasm_poll_running :
    ∀ s : WasmChildApp,
      (s.poll).2.is_running = s.is_running
        ∧ (s.kill).is_running = false
        ∧ (s.is_running = false → (s.poll).1 = .ready) := by
  intro s
  obtain ⟨f, q⟩ := s
  refine ⟨?_, rfl, ?_⟩
  · cases f <;> rfl
  · intro h
    cases f with
    | none => rfl
    | some f => simp [WasmChildApp.is_running] at h

/-- Witness for the amended C6: on a session whose unit of work was discarded,
`poll` returns `Ready`. -/
theorem klask_wasm_poll_running_witness :
    (WasmChildApp.poll ⟨none, ["m".toList]⟩).1 = .ready := by
  exact (klask_wasm_poll_running ⟨none, ["m".toList]⟩).2.2 rfl

/-- Draining a queue of lines with no end sentinel appends all of them and
leaves the channel active with an empty queue. -/
theorem drainChan_lines (ls : List Str) :
    ∀ out : Str, drainChan out (ls.map some) = (out ++ ls.flatten, some []) := by
  induction ls with
  | nil => intro out; simp [drainChan]
  | cons l ls ih =>
      intro out
      simp [drainChan, ih (out ++ l)]

/-- Draining a queue of lines followed by the end sentinel appends all of them
and retires the channel. -/
theorem drainChan_lines_ended (ls : List Str) (q : Chan) :
    ∀ out : Str, drainChan out (ls.map some ++ none :: q) = (out ++ ls.flatten, none) := by
  induction ls with
  | nil => intro out; simp [drainChan]
  | cons l ls ih =>
      intro out
      simp [drainChan, ih (out ++ l)]

/-- Draining one abstract channel: it appends exactly the queued lines
and retires the channel exactly when the end sentinel was queued. -/
theorem readStdio_chanRep (o : Option (List Str × Bool)) (out : Str) :
    readStdio out (chanRep o) = (out ++ (chanLines o).flatten, chanAfter o) := by
  cases o with
  | none => simp [readStdio, chanRep, chanLines, chanAfter]
  | some p =>
      obtain ⟨ls, ended⟩ := p
      cases ended with
      | false => simp [readStdio, chanRep, chanLines, chanAfter, drainChan_lines]
      | true => simp [readStdio, chanRep, chanLines, chanAfter, drainChan_lines_ended]

/-- C5: in the threaded strategy, one `read` call drains every currently
queued line from both channels (stdout's, then stderr's); a channel whose end
sentinel was queued is retired (so later reads skip it) while an active
channel is merely emptied; and `is_running` returns false exactly when both
channels have been retired. -/
theorem klask_read_drains :
    (∀ (alive : Bool) (o1 o2 : Option (List Str × Bool)),
        (ChildApp.read ⟨alive, chanRep o1, chanRep o2⟩).1
            = (chanLines o1).flatten ++ (chanLines o2).flatten
          ∧ (ChildApp.read ⟨alive, chanRep o1, chanRep o2⟩).2
              = ⟨alive, chanAfter o1, chanAfter o2⟩)
    ∧ ∀ s : ChildApp, s.is_running = false ↔ s.stdout = none ∧ s.stderr = none := by
  constructor
  · intro alive o1 o2
    constructor
    · show (readStdio (readStdio [] (chanRep o1)).1 (chanRep o2)).1 = _
      rw [readStdio_chanRep o1, readStdio_chanRep o2]
      simp
    · show (⟨alive, (readStdio [] (chanRep o1)).2,
          (readStdio (readStdio [] (chanRep o1)).1 (chanRep o2)).2⟩ : ChildApp) = _
      rw [readStdio_chanRep o1, readStdio_chanRep o2]
  · intro s
    obtain ⟨alive, o1, o2⟩ := s
    constructor
    · intro h
      cases o1 <;> cases o2 <;> simp_all [ChildApp.is_running]
    · intro h
      have h1 : o1 = none := h.1
      have h2 : o2 = none := h.2
      subst h1; subst h2
      rfl

/-- C10: in both strategies, once `is_running` is false it stays false under
every subsequent operation — threaded: `read`, `kill` and the drop handler;
cooperative: `poll`, `read` and `kill`.  No operation restores a retired
channel or a discarded unit of work. -/
theorem klask_running_latched :
    (∀ s : ChildApp, s.is_running = false →
        (s.read).2.is_running = false ∧ (s.kill).is_running = false
          ∧ (s.onDrop).is_running = false)
    ∧ ∀ w : WasmChildApp, w.is_running = false →
        (w.poll).2.is_running = false ∧ (w.read).2.is_running = false
          ∧ (w.kill).is_running = false := by
  constructor
  · intro s h
    obtain ⟨alive, o1, o2⟩ := s
    have h1 : o1 = none := by cases o1 <;> simp_all [ChildApp.is_running]
    have h2 : o2 = none := by cases o2 <;> simp_all [ChildApp.is_running]
    subst h1; subst h2
    exact ⟨rfl, rfl, rfl⟩
  · intro w h
    obtain ⟨f, q⟩ := w
    have hf : f = none := by cases f <;> simp_all [WasmChildApp.is_running]
    subst hf
    exact ⟨rfl, rfl, rfl⟩

/-- Witness for C10: on concrete not-running sessions of both strategies, the
operations leave `is_running` false. -/
theorem klask_running_latched_witness :
    (ChildApp.read ⟨false, none, none⟩).2.is_running = false
      ∧ (WasmChildApp.poll ⟨none, ["m".toList]⟩).2.is_running = false := by
  exact ⟨(klask_running_latched.1 ⟨false, none, none⟩ rfl).1,
    (klask_running_latched.2 ⟨none, ["m".toList]⟩ rfl).1⟩

/-- A flag-token body that contains no `=` splits into itself with no attached
value. -/
theorem splitEq_no_eq : ∀ (name : Str), ¬ '=' ∈ name → splitEq name = (name, none)
  | [], _ => rfl
  | c :: cs, h => by
      have hc : ¬ c = '=' := fun hh => h (hh ▸ List.mem_cons_self c cs)
      have hcs : ¬ '=' ∈ cs := fun hh => h (List.mem_cons_of_mem c hh)
      simp [splitEq, hc, splitEq_no_eq cs hcs]

/-- A flag-token body `name=value` whose name contains no `=` splits at that
first `=`. -/
theorem splitEq_append (name v : Str) (h : ¬ '=' ∈ name) :
    splitEq (name ++ '=' :: v) = (name, some v) := by
  induction name with
  | nil => simp [splitEq]
  | cons c cs ih =>
      have hc : ¬ c = '=' := fun hh => h (hh ▸ List.mem_cons_self c cs)
      have hcs : ¬ '=' ∈ cs := fun hh => h (List.mem_cons_of_mem c hh)
      simp [splitEq, hc, ih hcs]

/-- Setting a recorded name makes later lookups of it return the new data. -/
theorem lookupRaw_setRaw_self (n : Str) (r : Raw) :
    ∀ acc, (lookupRaw n acc).isSome → lookupRaw n (setRaw n r acc) = some r := by
  intro acc
  induction acc with
  | nil => intro h; simp [lookupRaw] at h
  | cons p ps ih =>
      intro h
      by_cases hp : p.1 = n
      · simp [setRaw, lookupRaw, hp]
      · simp [setRaw, lookupRaw, hp] at h ⊢
        exact ih h

/-- Setting one name leaves lookups of any other name unchanged. -/
theorem lookupRaw_setRaw_ne (n n' : Str) (r : Raw) (h : n' ≠ n) :
    ∀ acc, lookupRaw n' (setRaw n r acc) = lookupRaw n' acc := by
  intro acc
  induction acc with
  | nil => rfl
  | cons p ps ih =>
      have hne : ¬ n = n' := fun hh => h hh.symm
      by_cases hp : p.1 = n
      · simp [setRaw, lookupRaw, hp, hne, ih]
      · by_cases hq : p.1 = n'
        · simp [setRaw, lookupRaw, hp, hq, h, ih]
        · simp [setRaw, lookupRaw, hp, hq, h, ih]

/-- Setting a name does not change the recorded names. -/
theorem setRaw_keys (n : Str) (r : Raw) :
    ∀ acc, (setRaw n r acc).map Prod.fst = acc.map Prod.fst := by
  intro acc
  induction acc with
  | nil => rfl
  | cons p ps ih =>
      by_cases hp : p.1 = n <;> simp [setRaw, hp, ih]

/-- Lookup of a name no entry holds fails. -/
theorem lookupRaw_none_of_absent (n : Str) :
    ∀ acc : List (Str × Raw), (∀ p ∈ acc, p.1 ≠ n) → lookupRaw n acc = none := by
  intro acc
  induction acc with
  | nil => intro _; rfl
  | cons p ps ih =>
      intro h
      have hp : ¬ p.1 = n := h p (List.mem_cons_self p ps)
      simp only [lookupRaw, hp, if_false]
      exact ih fun q hq => h q (List.mem_cons_of_mem p hq)

/-- Setting an unrecorded name is a no-op. -/
theorem setRaw_absent (n : Str) (r : Raw) :
    ∀ acc, lookupRaw n acc = none → setRaw n r acc = acc := by
  intro acc
  induction acc with
  | nil => intro _; rfl
  | cons p ps ih =>
      intro h
      by_cases hp : p.1 = n
      · simp [lookupRaw, hp] at h
      · simp [lookupRaw, hp] at h
        simp [setRaw, hp, ih h]

/-- With distinct recorded names, re-recording the data a name already holds
is a no-op. -/
theorem setRaw_of_lookup_eq (n : Str) (r : Raw) :
    ∀ acc, lookupRaw n acc = some r → (acc.map Prod.fst).Nodup →
      setRaw n r acc = acc := by
  intro acc
  induction acc with
  | nil => intro _ _; rfl
  | cons p ps ih =>
      intro h hnd
      by_cases hp : p.1 = n
      · have hr : p.2 = r := by simp [lookupRaw, hp] at h; exact h
        have hkey : ¬ n ∈ ps.map Prod.fst := by
          rw [← hp]; exact (List.nodup_cons.1 hnd).1
        have habs : ∀ q ∈ ps, q.1 ≠ n :=
          fun q hq hqn => hkey (hqn ▸ List.mem_map_of_mem Prod.fst hq)
        have hnone : lookupRaw n ps = none := lookupRaw_none_of_absent n ps habs
        show (if p.1 = n then (p.1, r) else p) :: setRaw n r ps = p :: ps
        rw [if_pos hp, setRaw_absent n r ps hnone, ← hr]
      · have h' : lookupRaw n ps = some r := by simp [lookupRaw, hp] at h; exact h
        simp [setRaw, hp, ih h' (List.nodup_cons.1 hnd).2]

/-- Re-setting a name overwrites the earlier set. -/
theorem setRaw_setRaw (n : Str) (r r' : Raw) :
    ∀ acc, setRaw n r (setRaw n r' acc) = setRaw n r acc := by
  intro acc
  induction acc with
  | nil => rfl
  | cons p ps ih =>
      by_cases hp : p.1 = n <;> simp [setRaw, hp, ih]

/-- Parsing `n` consecutive bare flag tokens of a counted field adds `n` to
its recorded count. -/
theorem parseLoop_count (name : Str) (hne : ¬ '=' ∈ name) :
    ∀ (n k : Nat) (acc : List (Str × Raw)) (rest : List Str),
      (acc.map Prod.fst).Nodup →
      lookupRaw name acc = some (.count k) →
      parseLoop (List.replicate n ('-' :: '-' :: name) ++ rest) acc
        = parseLoop rest (setRaw name (.count (k + n)) acc) := by
  intro n
  induction n with
  | zero =>
      intro k acc rest hnd hl
      rw [List.replicate_zero, List.nil_append, Nat.add_zero,
        setRaw_of_lookup_eq name _ acc hl hnd]
  | succ m ih =>
      intro k acc rest hnd hl
      rw [List.replicate_succ, List.cons_append]
      simp only [parseLoop, splitEq_no_eq name hne, hl]
      have hnd' : ((setRaw name (Raw.count (k + 1)) acc).map Prod.fst).Nodup := by
        rw [setRaw_keys]; exact hnd
      have hl' : lookupRaw name (setRaw name (Raw.count (k + 1)) acc)
          = some (.count (k + 1)) :=
        lookupRaw_setRaw_self name _ acc (by rw [hl]; rfl)
      rw [ih (k + 1) _ rest hnd' hl', setRaw_setRaw]
      have harith : k + 1 + m = k + (m + 1) := by omega
      rw [harith]

/-- Parsing the equals-form tokens of a multi-value field's entries (no
delimiter) appends each entry text to its recorded values in order. -/
theorem parseLoop_multi_eq_tokens (name : Str) (hne : ¬ '=' ∈ name) :
    ∀ (vals : List (Str × Nat)) (vs0 : List Str) (acc : List (Str × Raw))
      (rest : List Str),
      (acc.map Prod.fst).Nodup →
      lookupRaw name acc = some (.multi none vs0) →
      parseLoop ((vals.map fun p => '-' :: '-' :: (name ++ '=' :: p.1)) ++ rest) acc
        = parseLoop rest (setRaw name (.multi none (vs0 ++ vals.map Prod.fst)) acc) := by
  intro vals
  induction vals with
  | nil =>
      intro vs0 acc rest hnd hl
      simp only [List.map_nil, List.nil_append, List.append_nil]
      rw [setRaw_of_lookup_eq name _ acc hl hnd]
  | cons p ps ih =>
      intro vs0 acc rest hnd hl
      simp only [List.map_cons, List.cons_append]
      simp only [parseLoop, splitEq_append name p.1 hne, hl, splitVal]
      have hnd' : ((setRaw name (Raw.multi none (vs0 ++ [p.1])) acc).map Prod.fst).Nodup := by
        rw [setRaw_keys]; exact hnd
      have hl' : lookupRaw name (setRaw name (Raw.multi none (vs0 ++ [p.1])) acc)
          = some (.multi none (vs0 ++ [p.1])) :=
        lookupRaw_setRaw_self name _ acc (by rw [hl]; rfl)
      rw [ih (vs0 ++ [p.1]) _ rest hnd' hl', setRaw_setRaw]
      simp [List.append_assoc]

/-- Parsing the space-form token pairs of a multi-value field's entries (no
delimiter) appends each entry text to its recorded values in order. -/
theorem parseLoop_multi_space_tokens (name : Str) (hne : ¬ '=' ∈ name) :
    ∀ (vals : List (Str × Nat)) (vs0 : List Str) (acc : List (Str × Raw))
      (rest : List Str),
      (acc.map Prod.fst).Nodup →
      lookupRaw name acc = some (.multi none vs0) →
      parseLoop ((vals.map fun p => ['-' :: '-' :: name, p.1]).flatten ++ rest) acc
        = parseLoop rest (setRaw name (.multi none (vs0 ++ vals.map Prod.fst)) acc) := by
  intro vals
  induction vals with
  | nil =>
      intro vs0 acc rest hnd hl
      simp only [List.map_nil, List.flatten_nil, List.nil_append, List.append_nil]
      rw [setRaw_of_lookup_eq name _ acc hl hnd]
  | cons p ps ih =>
      intro vs0 acc rest hnd hl
      simp only [List.map_cons, List.flatten_cons, List.cons_append, List.append_assoc]
      simp only [parseLoop, splitEq_no_eq name hne, hl, splitVal]
      simp only [List.nil_append]
      have hnd' : ((setRaw name (Raw.multi none (vs0 ++ [p.1])) acc).map Prod.fst).Nodup := by
        rw [setRaw_keys]; exact hnd
      have hl' : lookupRaw name (setRaw name (Raw.multi none (vs0 ++ [p.1])) acc)
          = some (.multi none (vs0 ++ [p.1])) :=
        lookupRaw_setRaw_self name _ acc (by rw [hl]; rfl)
      rw [ih (vs0 ++ [p.1]) _ rest hnd' hl', setRaw_setRaw]
      simp [List.append_assoc]

/-- Parsing the tokens one well-formed node emits, followed by any further
tokens, records exactly that node's final parse data for its field and then
continues with the rest. -/
theorem parseLoop_group (a : ArgState) (rest : List Str) (acc : List (Str × Raw))
    (hnd : (acc.map Prod.fst).Nodup) (hok : ArgOk a)
    (hl : lookupRaw a.desc.long acc = some a.desc.initRaw) :
    parseLoop (a.cmdTokens ++ rest) acc
      = parseLoop rest (setRaw a.desc.long a.finalRaw acc) := by
  obtain ⟨hne, htag, hdel⟩ := hok
  cases hk : a.kind with
  | bool b =>
      have hkd : a.desc.kindDesc = .bool := by rw [← htag, hk]; rfl
      have hinit : a.desc.initRaw = .bool false := by simp [ArgDesc.initRaw, hkd]
      rw [hinit] at hl
      have hfin : a.finalRaw = .bool b := by simp [ArgState.finalRaw, hk]
      cases b with
      | false =>
          have htok : a.cmdTokens = [] := by simp [ArgState.cmdTokens, hk]
          rw [htok, hfin, List.nil_append, setRaw_of_lookup_eq _ _ acc hl hnd]
      | true =>
          have htok : a.cmdTokens = ['-' :: '-' :: a.desc.long] := by
            simp [ArgState.cmdTokens, hk, ArgDesc.flag]
          rw [htok, hfin, List.cons_append, List.nil_append]
          simp only [parseLoop, splitEq_no_eq _ hne, hl]
  | occurrences n =>
      have hkd : a.desc.kindDesc = .occurrences := by rw [← htag, hk]; rfl
      have hinit : a.desc.initRaw = .count 0 := by simp [ArgDesc.initRaw, hkd]
      rw [hinit] at hl
      have hfin : a.finalRaw = .count n := by simp [ArgState.finalRaw, hk]
      have htok : a.cmdTokens = List.replicate n ('-' :: '-' :: a.desc.long) := by
        simp [ArgState.cmdTokens, hk, ArgDesc.flag]
      rw [htok, hfin, parseLoop_count _ hne n 0 acc rest hnd hl, Nat.zero_add]
  | string v =>
      have hkd : a.desc.kindDesc = .string := by rw [← htag, hk]; rfl
      have hinit : a.desc.initRaw = .str none := by simp [ArgDesc.initRaw, hkd]
      rw [hinit] at hl
      by_cases hv : v = []
      · subst hv
        by_cases hfe : a.desc.forbidEmpty = true
        · have htok : a.cmdTokens = [] := by simp [ArgState.cmdTokens, hk, hfe]
          have hfin : a.finalRaw = .str none := by simp [ArgState.finalRaw, hk, hfe]
          rw [htok, hfin, List.nil_append, setRaw_of_lookup_eq _ _ acc hl hnd]
        · by_cases hreq : a.desc.required = true
          · have hfin : a.finalRaw = .str (some []) := by
              simp [ArgState.finalRaw, hk, hfe, hreq]
            by_cases hre : a.desc.requireEquals = true
            · have htok : a.cmdTokens = ['-' :: '-' :: (a.desc.long ++ ['='])] := by
                simp [ArgState.cmdTokens, hk, hfe, hreq, ArgDesc.emitScalar, hre,
                  ArgDesc.flag]
              rw [htok, hfin, List.cons_append, List.nil_append]
              simp only [parseLoop, splitEq_append a.desc.long [] hne, hl]
            · have htok : a.cmdTokens = ['-' :: '-' :: a.desc.long, []] := by
                simp [ArgState.cmdTokens, hk, hfe, hreq, ArgDesc.emitScalar, hre,
                  ArgDesc.flag]
              rw [htok, hfin]
              simp only [List.cons_append, List.nil_append]
              simp only [parseLoop, splitEq_no_eq _ hne, hl]
          · have htok : a.cmdTokens = [] := by
              simp [ArgState.cmdTokens, hk, hfe, hreq]
            have hfin : a.finalRaw = .str none := by
              simp [ArgState.finalRaw, hk, hfe, hreq]
            rw [htok, hfin, List.nil_append, setRaw_of_lookup_eq _ _ acc hl hnd]
      · have hfin : a.finalRaw = .str (some v) := by simp [ArgState.finalRaw, hk, hv]
        by_cases hre : a.desc.requireEquals = true
        · have htok : a.cmdTokens = ['-' :: '-' :: (a.desc.long ++ '=' :: v)] := by
            simp [ArgState.cmdTokens, hk, hv, ArgDesc.emitScalar, hre, ArgDesc.flag]
          rw [htok, hfin, List.cons_append, List.nil_append]
          simp only [parseLoop, splitEq_append a.desc.long v hne, hl]
        · have htok : a.cmdTokens = ['-' :: '-' :: a.desc.long, v] := by
            simp [ArgState.cmdTokens, hk, hv, ArgDesc.emitScalar, hre, ArgDesc.flag]
          rw [htok, hfin]
          simp only [List.cons_append, List.nil_append]
          simp only [parseLoop, splitEq_no_eq _ hne, hl]
  | multipleStrings vals =>
      have hkd : a.desc.kindDesc = .multipleStrings := by rw [← htag, hk]; rfl
      have hinit : a.desc.initRaw = .multi a.desc.delimiter [] := by
        simp [ArgDesc.initRaw, hkd]
      rw [hinit] at hl
      have hfin : a.finalRaw = .multi a.desc.delimiter (vals.map Prod.fst) := by
        simp [ArgState.finalRaw, hk]
      by_cases hv : vals = []
      · subst hv
        have htok : a.cmdTokens = [] := by simp [ArgState.cmdTokens, hk]
        rw [htok, List.nil_append, hfin]
        simp only [List.map_nil]
        rw [setRaw_of_lookup_eq _ _ acc hl hnd]
      · cases hdl : a.desc.delimiter with
        | none =>
            rw [hdl] at hl hfin
            by_cases hre : a.desc.requireEquals = true
            · have htok : a.cmdTokens
                  = vals.map fun p => '-' :: '-' :: (a.desc.long ++ '=' :: p.1) := by
                simp [ArgState.cmdTokens, hk, hv, hdl, hre, ArgDesc.flag]
              rw [htok, hfin, parseLoop_multi_eq_tokens _ hne vals [] acc rest hnd hl]
              simp only [List.nil_append]
            · have htok : a.cmdTokens
                  = (vals.map fun p => ['-' :: '-' :: a.desc.long, p.1]).flatten := by
                simp [ArgState.cmdTokens, hk, hv, hdl, hre, ArgDesc.flag]
              rw [htok, hfin, parseLoop_multi_space_tokens _ hne vals [] acc rest hnd hl]
              simp only [List.nil_append]
        | some c =>
            rw [hdl] at hl hfin
            have hcmem : ∀ l ∈ vals.map Prod.fst, ¬ c ∈ l := by
              intro l hlm
              obtain ⟨p, hp, hpl⟩ := List.mem_map.1 hlm
              exact hpl ▸ hdel c vals hdl hk p hp
            have hnil : vals.map Prod.fst ≠ [] := fun h => hv (List.map_eq_nil_iff.1 h)
            have hsplit : splitVal (some c) (List.intercalate [c] (vals.map Prod.fst))
                = vals.map Prod.fst := by
              show (List.intercalate [c] (vals.map Prod.fst)).splitOn c = _
              exact List.splitOn_intercalate _ c hcmem hnil
            by_cases hre : a.desc.requireEquals = true
            · have htok : a.cmdTokens
                  = ['-' :: '-'
                      :: (a.desc.long ++ '=' :: List.intercalate [c] (vals.map Prod.fst))] := by
                simp [ArgState.cmdTokens, hk, hv, hdl, hre, ArgDesc.emitScalar,
                  ArgDesc.flag]
              rw [htok, hfin, List.cons_append, List.nil_append]
              simp only [parseLoop, splitEq_append a.desc.long _ hne, hl, hsplit,
                List.nil_append]
            · have htok : a.cmdTokens
                  = ['-' :: '-' :: a.desc.long,
                     List.intercalate [c] (vals.map Prod.fst)] := by
                simp [ArgState.cmdTokens, hk, hv, hdl, hre, ArgDesc.emitScalar,
                  ArgDesc.flag]
              rw [htok, hfin]
              simp only [List.cons_append, List.nil_append]
              simp only [parseLoop, splitEq_no_eq _ hne, hl, hsplit, List.nil_append]

/-- The names recorded by the start accumulator are the schema's long names. -/
theorem initAcc_keys (schema : List ArgDesc) :
    (initAcc schema).map Prod.fst = schema.map ArgDesc.long := by
  simp [initAcc, List.map_map, Function.comp]

/-- Lookup in the start accumulator finds a schema member's initial data. -/
theorem lookupRaw_initAcc (schema : List ArgDesc) (d : ArgDesc)
    (hnd : (schema.map ArgDesc.long).Nodup) (hd : d ∈ schema) :
    lookupRaw d.long (initAcc schema) = some d.initRaw := by
  induction schema with
  | nil => cases hd
  | cons e es ih =>
      rw [List.map_cons, List.nodup_cons] at hnd
      rcases List.mem_cons.1 hd with he | he
      · subst he
        simp [initAcc, lookupRaw]
      · have hne : ¬ e.long = d.long := by
          intro hh
          exact hnd.1 (hh ▸ List.mem_map_of_mem ArgDesc.long he)
        simpa [initAcc, lookupRaw, hne] using ih hnd.2 he

/-- Folding `applyUpd` does not change the recorded names. -/
theorem applyUpd_keys (args : List ArgState) :
    ∀ acc, (applyUpd args acc).map Prod.fst = acc.map Prod.fst := by
  induction args with
  | nil => intro acc; rfl
  | cons a as ih =>
      intro acc
      have hstep : applyUpd (a :: as) acc
          = applyUpd as (setRaw a.desc.long a.finalRaw acc) := rfl
      rw [hstep, ih, setRaw_keys]

/-- A name held by none of the nodes is untouched by `applyUpd`. -/
theorem lookupRaw_applyUpd_other (args : List ArgState) (n : Str)
    (h : ∀ a ∈ args, a.desc.long ≠ n) :
    ∀ acc, lookupRaw n (applyUpd args acc) = lookupRaw n acc := by
  induction args with
  | nil => intro acc; rfl
  | cons a as ih =>
      intro acc
      have h1 : a.desc.long ≠ n := h a (List.mem_cons_self a as)
      have hstep : applyUpd (a :: as) acc
          = applyUpd as (setRaw a.desc.long a.finalRaw acc) := rfl
      rw [hstep, ih (fun b hb => h b (List.mem_cons_of_mem a hb)),
        lookupRaw_setRaw_ne a.desc.long n _ (fun hh => h1 hh.symm) acc]

/-- After `applyUpd`, each node's name maps to that node's final parse data. -/
theorem lookupRaw_applyUpd_mem (args : List ArgState) (a : ArgState)
    (ha : a ∈ args) (hll : (args.map fun x => x.desc.long).Nodup) :
    ∀ acc, (lookupRaw a.desc.long acc).isSome →
      lookupRaw a.desc.long (applyUpd args acc) = some a.finalRaw := by
  induction args with
  | nil => cases ha
  | cons b bs ih =>
      intro acc hs
      rw [List.map_cons, List.nodup_cons] at hll
      have hstep : applyUpd (b :: bs) acc
          = applyUpd bs (setRaw b.desc.long b.finalRaw acc) := rfl
      rcases List.mem_cons.1 ha with he | he
      · subst he
        have hnb : ∀ x ∈ bs, x.desc.long ≠ a.desc.long := by
          intro x hx hh
          exact hll.1 (hh ▸ List.mem_map_of_mem (fun y => y.desc.long) hx)
        rw [hstep, lookupRaw_applyUpd_other bs a.desc.long hnb _,
          lookupRaw_setRaw_self _ _ acc hs]
      · have hne : a.desc.long ≠ b.desc.long := by
          intro hh
          exact hll.1 (hh ▸ List.mem_map_of_mem (fun y => y.desc.long) he)
        have hs' : (lookupRaw a.desc.long (setRaw b.desc.long b.finalRaw acc)).isSome := by
          rw [lookupRaw_setRaw_ne b.desc.long a.desc.long _ hne acc]
          exact hs
        rw [hstep]
        exact ih he hll.2 _ hs'

/-- Parsing the concatenated token groups of a list of well-formed nodes with
pairwise-distinct names succeeds and records each node's final parse data. -/
theorem parseLoop_args (args : List ArgState) :
    ∀ acc, (acc.map Prod.fst).Nodup →
      (∀ a ∈ args, ArgOk a) →
      (args.map fun x => x.desc.long).Nodup →
      (∀ a ∈ args, lookupRaw a.desc.long acc = some a.desc.initRaw) →
      parseLoop ((args.map ArgState.cmdTokens).flatten) acc
        = some (applyUpd args acc) := by
  induction args with
  | nil =>
      intro acc _ _ _ _
      rfl
  | cons a as ih =>
      intro acc hnd hok hll hl
      rw [List.map_cons, List.flatten_cons]
      rw [List.map_cons, List.nodup_cons] at hll
      rw [parseLoop_group a _ acc hnd (hok a (List.mem_cons_self a as))
        (hl a (List.mem_cons_self a as))]
      have hnd' : ((setRaw a.desc.long a.finalRaw acc).map Prod.fst).Nodup := by
        rw [setRaw_keys]
        exact hnd
      have hl' : ∀ b ∈ as, lookupRaw b.desc.long (setRaw a.desc.long a.finalRaw acc)
          = some b.desc.initRaw := by
        intro b hb
        have hne : b.desc.long ≠ a.desc.long := by
          intro hh
          exact hll.1 (hh ▸ List.mem_map_of_mem (fun y => y.desc.long) hb)
        rw [lookupRaw_setRaw_ne a.desc.long b.desc.long _ hne acc]
        exact hl b (List.mem_cons_of_mem a hb)
      rw [ih _ hnd' (fun b hb => hok b (List.mem_cons_of_mem a hb)) hll.2 hl']
      rfl

/-- Finalizing the parse data a node's tokens leave behind yields exactly the
semantic value the node denotes. -/
theorem finalize_finalRaw (a : ArgState) :
    a.desc.finalize (some a.finalRaw) = a.value := by
  cases hk : a.kind with
  | string v =>
      by_cases hv : v = []
      · subst hv
        by_cases hfe : a.desc.forbidEmpty = true
        · simp [ArgState.finalRaw, ArgDesc.finalize, ArgState.value, hk, hfe]
        · by_cases hreq : a.desc.required = true <;>
            simp [ArgState.finalRaw, ArgDesc.finalize, ArgState.value, hk, hfe, hreq]
      · simp [ArgState.finalRaw, ArgDesc.finalize, ArgState.value, hk, hv]
  | bool b => simp [ArgState.finalRaw, ArgDesc.finalize, ArgState.value, hk]
  | occurrences n => simp [ArgState.finalRaw, ArgDesc.finalize, ArgState.value, hk]
  | multipleStrings vals =>
      simp [ArgState.finalRaw, ArgDesc.finalize, ArgState.value, hk]

/-- Updating with a function that fixes a projection does not change the
projected list. -/
theorem updateAt_map_fix (f : α → α) (g : α → β) (h : ∀ a, g (f a) = g a) :
    ∀ (l : List α) (i : Nat), (updateAt l i f).map g = l.map g := by
  intro l
  induction l with
  | nil => intro i; rfl
  | cons x xs ih =>
      intro i
      cases i with
      | zero => simp [updateAt, h x]
      | succ j => simp [updateAt, ih j]

/-- A member of `updateAt l i f` is a member of `l` or the image under `f` of
the element at `i`. -/
theorem mem_updateAt (f : α → α) :
    ∀ (l : List α) (i : Nat) (b : α), b ∈ updateAt l i f →
      b ∈ l ∨ ∃ a, l.get? i = some a ∧ b = f a := by
  intro l
  induction l with
  | nil => intro i b hb; cases hb
  | cons x xs ih =>
      intro i b hb
      cases i with
      | zero =>
          rcases List.mem_cons.1 hb with he | he
          · exact Or.inr ⟨x, rfl, he⟩
          · exact Or.inl (List.mem_cons_of_mem x he)
      | succ j =>
          rcases List.mem_cons.1 hb with he | he
          · exact Or.inl (he ▸ List.mem_cons_self x xs)
          · rcases ih j b he with h1 | ⟨a, ha1, ha2⟩
            · exact Or.inl (List.mem_cons_of_mem x h1)
            · exact Or.inr ⟨a, ha1, ha2⟩

/-- Updating at one index leaves every other index unchanged. -/
theorem updateAt_get?_ne (f : α → α) :
    ∀ (l : List α) (i j : Nat), i ≠ j → (updateAt l j f).get? i = l.get? i := by
  intro l
  induction l with
  | nil => intro i j _; rfl
  | cons x xs ih =>
      intro i j hij
      cases j with
      | zero =>
          cases i with
          | zero => exact absurd rfl hij
          | succ i2 => rfl
      | succ j2 =>
          cases i with
          | zero => rfl
          | succ i2 => simpa [updateAt] using ih i2 j2 (fun hh => hij (by rw [hh]))

/-- The entry texts recorded by `withIds`. -/
theorem withIds_fst (vs : List Str) : ∀ n, (withIds vs n).map Prod.fst = vs := by
  induction vs with
  | nil => intro n; rfl
  | cons v vs2 ih => intro n; simp [withIds, ih (n + 1)]

/-- Each entry `withIds` produces carries one of the given texts. -/
theorem withIds_mem_fst (vs : List Str) (n : Nat) (p : Str × Nat)
    (hp : p ∈ withIds vs n) : p.1 ∈ vs := by
  have := List.mem_map_of_mem Prod.fst hp
  rwa [withIds_fst vs n] at this

/-- The four mutation helpers never change a node's descriptor. -/
theorem mutation_desc_fix (m : Mutation) (a : ArgState) :
    (match m with
      | .enter _ v => a.enter v
      | .enterMultiple _ vs => a.enter_multiple vs
      | .occurrences _ n => a.occurrences n
      | .set _ b => a.set b).desc = a.desc := by
  cases m <;> cases hk : a.kind <;>
    simp [ArgState.enter, ArgState.enter_multiple, ArgState.occurrences, ArgState.set, hk]

/-- A payload tagged as a string is one. -/
theorem tag_string (k : ArgKind) (h : k.tag = .string) : ∃ v, k = .string v := by
  cases k with
  | string v => exact ⟨v, rfl⟩
  | multipleStrings m => simp [ArgKind.tag] at h
  | bool b => simp [ArgKind.tag] at h
  | occurrences n => simp [ArgKind.tag] at h

/-- A payload tagged as a multi-value list is one. -/
theorem tag_multi (k : ArgKind) (h : k.tag = .multipleStrings) :
    ∃ vals, k = .multipleStrings vals := by
  cases k with
  | string v => simp [ArgKind.tag] at h
  | multipleStrings m => exact ⟨m, rfl⟩
  | bool b => simp [ArgKind.tag] at h
  | occurrences n => simp [ArgKind.tag] at h

/-- A payload tagged as a flag is one. -/
theorem tag_bool (k : ArgKind) (h : k.tag = .bool) : ∃ b, k = .bool b := by
  cases k with
  | string v => simp [ArgKind.tag] at h
  | multipleStrings m => simp [ArgKind.tag] at h
  | bool b => exact ⟨b, rfl⟩
  | occurrences n => simp [ArgKind.tag] at h

/-- A payload tagged as a counter is one. -/
theorem tag_occ (k : ArgKind) (h : k.tag = .occurrences) :
    ∃ n, k = .occurrences n := by
  cases k with
  | string v => simp [ArgKind.tag] at h
  | multipleStrings m => simp [ArgKind.tag] at h
  | bool b => simp [ArgKind.tag] at h
  | occurrences n => exact ⟨n, rfl⟩

/-- One valid mutation preserves the descriptor list and node well-formedness.
-/
theorem apply1_ok (schema : List ArgDesc) (st : AppState) (m : Mutation)
    (hd : st.args.map ArgState.desc = schema)
    (hok : ∀ a ∈ st.args, ArgOk a)
    (hv : m.valid schema = true) :
    (st.apply1 m).args.map ArgState.desc = schema
      ∧ ∀ a ∈ (st.apply1 m).args, ArgOk a := by
  cases m with
  | enter i v =>
      constructor
      · rw [show (st.apply1 (.enter i v)).args = updateAt st.args i (fun a => a.enter v)
            from rfl]
        rw [updateAt_map_fix _ _ (fun a => mutation_desc_fix (.enter i v) a), hd]
      · intro b hb
        rcases mem_updateAt _ st.args i b hb with h1 | ⟨a, ha1, ha2⟩
        · exact hok b h1
        · subst ha2
          have haok := hok a (List.get?_mem ha1)
          have hgd : schema.get? i = some a.desc := by
            rw [← hd, List.get?_map, ha1]
            rfl
          rw [Mutation.valid, hgd] at hv
          simp only [Option.any_some, beq_iff_eq] at hv
          obtain ⟨hne, htag, _⟩ := haok
          obtain ⟨v0, hk⟩ := tag_string a.kind (by rw [htag, hv])
          have hdesc2 : (a.enter v).desc = a.desc := by simp [ArgState.enter, hk]
          have hkind2 : (a.enter v).kind = .string v := by simp [ArgState.enter, hk]
          refine ⟨by rw [hdesc2]; exact hne, by rw [hkind2, hdesc2, hv]; rfl, ?_⟩
          intro c vals _ hkk
          rw [hkind2] at hkk
          simp at hkk
  | enterMultiple i vs =>
      constructor
      · rw [show (st.apply1 (.enterMultiple i vs)).args
            = updateAt st.args i (fun a => a.enter_multiple vs) from rfl]
        rw [updateAt_map_fix _ _ (fun a => mutation_desc_fix (.enterMultiple i vs) a), hd]
      · intro b hb
        rcases mem_updateAt _ st.args i b hb with h1 | ⟨a, ha1, ha2⟩
        · exact hok b h1
        · subst ha2
          have haok := hok a (List.get?_mem ha1)
          have hgd : schema.get? i = some a.desc := by
            rw [← hd, List.get?_map, ha1]
            rfl
          rw [Mutation.valid, hgd] at hv
          simp only [Option.any_some, Bool.and_eq_true, beq_iff_eq] at hv
          obtain ⟨hne, htag, _⟩ := haok
          obtain ⟨vals0, hk⟩ := tag_multi a.kind (by rw [htag, hv.1])
          have hdesc2 : (a.enter_multiple vs).desc = a.desc := by
            simp [ArgState.enter_multiple, hk]
          have hkind2 : (a.enter_multiple vs).kind = .multipleStrings (withIds vs 0) := by
            simp [ArgState.enter_multiple, hk]
          refine ⟨by rw [hdesc2]; exact hne, by rw [hkind2, hdesc2, hv.1]; rfl, ?_⟩
          intro c vals hdl hkk
          rw [hdesc2] at hdl
          rw [hkind2] at hkk
          have hvals : vals = withIds vs 0 := by
            injection hkk with h
            exact h.symm
          subst hvals
          intro p hp hcp
          rw [hdl] at hv
          have hmem := withIds_mem_fst vs 0 p hp
          have hx := List.all_eq_true.1 hv.2 p.1 hmem
          have : ¬ c ∈ p.1 := by simpa using hx
          exact this hcp
  | occurrences i n =>
      constructor
      · rw [show (st.apply1 (.occurrences i n)).args
            = updateAt st.args i (fun a => a.occurrences n) from rfl]
        rw [updateAt_map_fix _ _ (fun a => mutation_desc_fix (.occurrences i n) a), hd]
      · intro b hb
        rcases mem_updateAt _ st.args i b hb with h1 | ⟨a, ha1, ha2⟩
        · exact hok b h1
        · subst ha2
          have haok := hok a (List.get?_mem ha1)
          have hgd : schema.get? i = some a.desc := by
            rw [← hd, List.get?_map, ha1]
            rfl
          rw [Mutation.valid, hgd] at hv
          simp only [Option.any_some, Bool.and_eq_true, beq_iff_eq] at hv
          obtain ⟨hne, htag, _⟩ := haok
          obtain ⟨n0, hk⟩ := tag_occ a.kind (by rw [htag, hv.2])
          have hdesc2 : (a.occurrences n).desc = a.desc := by
            simp [ArgState.occurrences, hk]
          have hkind2 : (a.occurrences n).kind = .occurrences n := by
            simp [ArgState.occurrences, hk]
          refine ⟨by rw [hdesc2]; exact hne, by rw [hkind2, hdesc2, hv.2]; rfl, ?_⟩
          intro c vals _ hkk
          rw [hkind2] at hkk
          simp at hkk
  | set i b0 =>
      constructor
      · rw [show (st.apply1 (.set i b0)).args
            = updateAt st.args i (fun a => a.set b0) from rfl]
        rw [updateAt_map_fix _ _ (fun a => mutation_desc_fix (.set i b0) a), hd]
      · intro b hb
        rcases mem_updateAt _ st.args i b hb with h1 | ⟨a, ha1, ha2⟩
        · exact hok b h1
        · subst ha2
          have haok := hok a (List.get?_mem ha1)
          have hgd : schema.get? i = some a.desc := by
            rw [← hd, List.get?_map, ha1]
            rfl
          rw [Mutation.valid, hgd] at hv
          simp only [Option.any_some, beq_iff_eq] at hv
          obtain ⟨hne, htag, _⟩ := haok
          obtain ⟨bb, hk⟩ := tag_bool a.kind (by rw [htag, hv])
          have hdesc2 : (a.set b0).desc = a.desc := by simp [ArgState.set, hk]
          have hkind2 : (a.set b0).kind = .bool b0 := by simp [ArgState.set, hk]
          refine ⟨by rw [hdesc2]; exact hne, by rw [hkind2, hdesc2, hv]; rfl, ?_⟩
          intro c vals _ hkk
          rw [hkind2] at hkk
          simp at hkk

/-- A valid mutation sequence preserves the descriptor list and node
well-formedness. -/
theorem applyMuts_ok (schema : List ArgDesc) (muts : List Mutation) :
    ∀ st : AppState, st.args.map ArgState.desc = schema →
      (∀ a ∈ st.args, ArgOk a) →
      (∀ m ∈ muts, m.valid schema = true) →
      (st.applyMuts muts).args.map ArgState.desc = schema
        ∧ ∀ a ∈ (st.applyMuts muts).args, ArgOk a := by
  induction muts with
  | nil => intro st hd hok _; exact ⟨hd, hok⟩
  | cons m ms ih =>
      intro st hd hok hv
      have h1 := apply1_ok schema st m hd hok (hv m (List.mem_cons_self m ms))
      have hstep : st.applyMuts (m :: ms) = (st.apply1 m).applyMuts ms := rfl
      rw [hstep]
      exact ih (st.apply1 m) h1.1 h1.2 fun m2 hm2 => hv m2 (List.mem_cons_of_mem m hm2)

/-- The freshly constructed state carries the schema's descriptors in order.
-/
theorem new_desc (schema : List ArgDesc) :
    (AppState.new schema).args.map ArgState.desc = schema := by
  induction schema with
  | nil => rfl
  | cons d ds ih => simpa [AppState.new, List.map_map] using ih

/-- Initial payloads match their descriptors' kinds. -/
theorem initKind_tag (d : ArgDesc) : d.initKind.tag = d.kindDesc := by
  cases hk : d.kindDesc <;> simp [ArgDesc.initKind, hk, ArgKind.tag]

/-- Every node of a freshly constructed state over a well-formed schema is
well-formed. -/
theorem new_ok (schema : List ArgDesc) (hwf : WellFormedSchema schema) :
    ∀ a ∈ (AppState.new schema).args, ArgOk a := by
  intro a ha
  rw [AppState.new] at ha
  obtain ⟨d, hd, rfl⟩ := List.mem_map.1 ha
  refine ⟨(hwf.2 d hd).2, initKind_tag d, ?_⟩
  intro c vals _ hkk
  cases hkd : d.kindDesc with
  | multipleStrings =>
      have h2 : vals = [] := by
        rw [ArgDesc.initKind, hkd] at hkk
        simpa using hkk.symm
      subst h2
      intro p hp
      cases hp
  | string => rw [ArgDesc.initKind, hkd] at hkk; simp at hkk
  | bool => rw [ArgDesc.initKind, hkd] at hkk; simp at hkk
  | occurrences => rw [ArgDesc.initKind, hkd] at hkk; simp at hkk

/-- One mutation leaves every other index's node unchanged. -/
theorem apply1_get?_ne (st : AppState) (m : Mutation) (i : Nat)
    (h : m.index ≠ i) : (st.apply1 m).args.get? i = st.args.get? i := by
  cases m with
  | enter j v => exact updateAt_get?_ne _ st.args i j fun hh => h hh.symm
  | enterMultiple j vs => exact updateAt_get?_ne _ st.args i j fun hh => h hh.symm
  | occurrences j n => exact updateAt_get?_ne _ st.args i j fun hh => h hh.symm
  | set j b => exact updateAt_get?_ne _ st.args i j fun hh => h hh.symm

/-- A mutation sequence that never touches an index leaves that index's node
unchanged. -/
theorem applyMuts_get?_ne (muts : List Mutation) (i : Nat)
    (h : ∀ m ∈ muts, m.index ≠ i) :
    ∀ st : AppState, (st.applyMuts muts).args.get? i = st.args.get? i := by
  induction muts with
  | nil => intro st; rfl
  | cons m ms ih =>
      intro st
      have hstep : st.applyMuts (m :: ms) = (st.apply1 m).applyMuts ms := rfl
      rw [hstep, ih (fun m2 hm2 => h m2 (List.mem_cons_of_mem m hm2)),
        apply1_get?_ne st m i (h m (List.mem_cons_self m ms))]

/-- Mapping over the descriptors agrees with mapping over the nodes, when the
two functions agree node by node. -/
theorem map_desc_map (args : List ArgState) (F : ArgDesc → Value)
    (G : ArgState → Value) (h : ∀ a ∈ args, F a.desc = G a) :
    (args.map ArgState.desc).map F = args.map G := by
  rw [List.map_map]
  exact List.map_congr_left fun a ha => h a ha

/-- C1: round trip.  For any well-formed schema and any sequence of valid
mutations applied to a freshly constructed form state: reconstruction totally
appends the per-node tokens to the initial vector; parsing the reconstructed
tokens with the original schema succeeds and yields exactly the field values
the mutated state denotes (what the mutations set); and every field no
mutation touched still holds its freshly constructed node, so its parsed value
is the schema default. -/
theorem klask_round_trip (schema : List ArgDesc) (muts : List Mutation)
    (hwf : WellFormedSchema schema)
    (hv : ∀ m ∈ muts, Mutation.valid schema m = true) :
    (∀ args0 : List Str,
        ((AppState.new schema).applyMuts muts).get_cmd_args args0
          = args0 ++ ((AppState.new schema).applyMuts muts).allTokens)
    ∧ parse schema ((AppState.new schema).applyMuts muts).allTokens
        = some (((AppState.new schema).applyMuts muts).args.map ArgState.value)
    ∧ ∀ i d, schema.get? i = some d → (∀ m ∈ muts, m.index ≠ i) →
        (((AppState.new schema).applyMuts muts).args.map ArgState.value).get? i
          = some d.defaultVal := by
  obtain ⟨hnd, hwfmem⟩ := hwf
  obtain ⟨hdesc, hok⟩ := applyMuts_ok schema muts (AppState.new schema)
    (new_desc schema) (new_ok schema ⟨hnd, hwfmem⟩) hv
  refine ⟨fun args0 => rfl, ?_, ?_⟩
  · have hll : (((AppState.new schema).applyMuts muts).args.map
        fun x => x.desc.long).Nodup := by
      have hh : (((AppState.new schema).applyMuts muts).args.map fun x => x.desc.long)
          = (((AppState.new schema).applyMuts muts).args.map ArgState.desc).map
              ArgDesc.long := by
        rw [List.map_map]
        rfl
      rw [hh, hdesc]
      exact hnd
    have hinit : ∀ a ∈ ((AppState.new schema).applyMuts muts).args,
        lookupRaw a.desc.long (initAcc schema) = some a.desc.initRaw := by
      intro a ha
      exact lookupRaw_initAcc schema a.desc hnd
        (hdesc ▸ List.mem_map_of_mem ArgState.desc ha)
    have hkeys : ((initAcc schema).map Prod.fst).Nodup := by
      rw [initAcc_keys]
      exact hnd
    rw [parse, AppState.allTokens,
      parseLoop_args _ (initAcc schema) hkeys hok hll hinit]
    simp only [Option.map_some']
    have hread : ∀ a ∈ ((AppState.new schema).applyMuts muts).args,
        a.desc.finalize
            (lookupRaw a.desc.long
              (applyUpd ((AppState.new schema).applyMuts muts).args (initAcc schema)))
          = a.value := by
      intro a ha
      have hsome : (lookupRaw a.desc.long (initAcc schema)).isSome := by
        rw [hinit a ha]
        rfl
      rw [lookupRaw_applyUpd_mem _ a ha hll (initAcc schema) hsome]
      exact finalize_finalRaw a
    have hmaps := map_desc_map ((AppState.new schema).applyMuts muts).args
      (fun d => d.finalize
        (lookupRaw d.long
          (applyUpd ((AppState.new schema).applyMuts muts).args (initAcc schema))))
      ArgState.value hread
    rw [hdesc] at hmaps
    rw [hmaps]
  · intro i d hgd hunt
    have hget : ((AppState.new schema).applyMuts muts).args.get? i
        = some ⟨d, d.initKind⟩ := by
      rw [applyMuts_get?_ne muts i hunt (AppState.new schema), AppState.new,
        List.get?_map, hgd]
      rfl
    rw [List.get?_map, hget]
    rfl

/-- Witness for C1: on a concrete schema with one argument of each kind and a
concrete valid mutation sequence, parsing the reconstructed tokens yields the
mutated state's field values. -/
theorem klask_round_trip_witness :
    parse
        [⟨"single".toList, none, .string, true, none, false, false, none⟩,
         ⟨"flag-true".toList, none, .bool, false, none, false, false, none⟩,
         ⟨"occurrences".toList, some 'o', .occurrences, false, none, false, false, none⟩,
         ⟨"multi".toList, none, .multipleStrings, false, none, false, true, some ','⟩]
        ((AppState.applyMuts
            (AppState.new
              [⟨"single".toList, none, .string, true, none, false, false, none⟩,
               ⟨"flag-true".toList, none, .bool, false, none, false, false, none⟩,
               ⟨"occurrences".toList, some 'o', .occurrences, false, none, false, false, none⟩,
               ⟨"multi".toList, none, .multipleStrings, false, none, false, true, some ','⟩])
            [.enter 0 "a".toList, .set 1 true, .occurrences 2 3,
             .enterMultiple 3 ["h".toList, "i".toList]]).allTokens)
      = some
          ((AppState.applyMuts
              (AppState.new
                [⟨"single".toList, none, .string, true, none, false, false, none⟩,
                 ⟨"flag-true".toList, none, .bool, false, none, false, false, none⟩,
                 ⟨"occurrences".toList, some 'o', .occurrences, false, none, false, false, none⟩,
                 ⟨"multi".toList, none, .multipleStrings, false, none, false, true, some ','⟩])
              [.enter 0 "a".toList, .set 1 true, .occurrences 2 3,
               .enterMultiple 3 ["h".toList, "i".toList]]).args.map ArgState.value) := by
  exact (klask_round_trip
    [⟨"single".toList, none, .string, true, none, false, false, none⟩,
     ⟨"flag-true".toList, none, .bool, false, none, false, false, none⟩,
     ⟨"occurrences".toList, some 'o', .occurrences, false, none, false, false, none⟩,
     ⟨"multi".toList, none, .multipleStrings, false, none, false, true, some ','⟩]
    [.enter 0 "a".toList, .set 1 true, .occurrences 2 3,
     .enterMultiple 3 ["h".toList, "i".toList]]
    (by decide) (by decide)).2.1

example :
    (AppState.applyMuts
        (AppState.new
          [⟨"single".toList, none, .string, true, none, false, false, none⟩,
           ⟨"flag-true".toList, none, .bool, false, none, false, false, none⟩,
           ⟨"occurrences".toList, some 'o', .occurrences, false, none, false, false, none⟩,
           ⟨"multi".toList, none, .multipleStrings, false, none, false, true, some ','⟩])
        [.enter 0 "a".toList, .set 1 true, .occurrences 2 3,
         .enterMultiple 3 ["h".toList, "i".toList]]).allTokens
      = ["--single".toList, "a".toList, "--flag-true".toList,
         "--occurrences".toList, "--occurrences".toList, "--occurrences".toList,
         "--multi=h,i".toList] := by decide

example :
    (AppState.applyMuts
        (AppState.new
          [⟨"single".toList, none, .string, true, none, false, false, none⟩,
           ⟨"flag-true".toList, none, .bool, false, none, false, false, none⟩,
           ⟨"occurrences".toList, some 'o', .occurrences, false, none, false, false, none⟩,
           ⟨"multi".toList, none, .multipleStrings, false, none, false, true, some ','⟩])
        [.enter 0 "a".toList, .set 1 true, .occurrences 2 3,
         .enterMultiple 3 ["h".toList, "i".toList]]).args.map ArgState.value
      = [.str (some "a".toList), .bool true, .count 3,
         .multi ["h".toList, "i".toList]] := by decide

example :
    parse
        [⟨"single".toList, none, .string, true, none, false, false, none⟩,
         ⟨"flag-true".toList, none, .bool, false, none, false, false, none⟩,
         ⟨"occurrences".toList, some 'o', .occurrences, false, none, false, false, none⟩,
         ⟨"multi".toList, none, .multipleStrings, false, none, false, true, some ','⟩]
        ["--single".toList, "a".toList, "--flag-true".toList,
         "--occurrences".toList, "--occurrences".toList, "--occurrences".toList,
         "--multi=h,i".toList]
      = some [.str (some "a".toList), .bool true, .count 3,
              .multi ["h".toList, "i".toList]] := by decide
